import Mathlib

/-!
# Verification of the interactive diff-and-merge subsystem

A shallow embedding, in Lean 4, of the diff/merge core of the editor:

* the tokenizer and LCS diff engine (`src/unnamed/part_004`, the current
  `diffEngine` module; an older variant lives in `src/utils/diffEngine.ts`),
* the diff renderer `generateInteractiveDiffHtml` (`src/unnamed/part_004`),
* the Change-Unit toggle of `handleEditorClick` (`src/unnamed/part_002`,
  the current `Editor` component),
* the history machinery `saveSnapshot` / `undo` / `redo` and the AI-revision
  flow `runAIRevision` (`src/unnamed/part_002`; `src/components/Editor.tsx`
  has the same `saveSnapshot`/`undo`/`redo` code).

Text (a JS string) is modelled as `List Char`; a token is a `List Char`.
-/

namespace Dynojump

/-! ## Tokenizer (src/unnamed/part_004, `tokenize`)

The source first splits on newlines keeping each `\n` (`text.split(/(\n)/)`),
then splits every non-newline segment by `part.split(/(\s+|\b)/)` and filters
out empty fragments.  Per the ECMAScript `String.prototype.split` semantics,
splitting on `/(\s+|\b)/` and discarding empty fragments cuts a newline-free
segment exactly at every transition between the three character classes
"whitespace", "word character" (`\w` = `[A-Za-z0-9_]`) and "other": maximal
runs of whitespace are separated by the greedy `\s+` alternative and the
word/non-word transitions are the zero-width `\b` matches.  `chunkClasses`
below realises that cut directly. -/

/-- The characters matched by the (non-unicode-mode) JavaScript `\s` class. -/
def isSpaceJS (c : Char) : Bool :=
  c = ' ' || c = '\t' || c = '\n' || c = '\x0b' || c = '\x0c' || c = '\r' ||
  c = ' ' || c = ' ' ||
  (0x2000 ≤ c.toNat && c.toNat ≤ 0x200a) ||
  c = ' ' || c = ' ' || c = ' ' || c = ' ' ||
  c = '　' || c = '﻿'

/-- The characters matched by the JavaScript `\w` class (ASCII letters,
digits, underscore), which defines the `\b` word boundaries. -/
def isWordChar (c : Char) : Bool :=
  ('A' ≤ c && c ≤ 'Z') || ('a' ≤ c && c ≤ 'z') || ('0' ≤ c && c ≤ '9') || c = '_'

/-- Character class used by the `/(\s+|\b)/` split: whitespace, word, other. -/
def charClass (c : Char) : Nat :=
  if isSpaceJS c then 0 else if isWordChar c then 1 else 2

/-- Prepend a character to a chunk list, merging it into the first chunk when
the character classes agree (the second case is unreachable because
`chunkClasses` never produces an empty chunk, but keeps the function total). -/
def chunkRun (c : Char) : List (List Char) → List (List Char)
  | [] => [[c]]
  | [] :: rest => [c] :: [] :: rest
  | (d :: ds) :: rest =>
      if charClass c = charClass d then (c :: d :: ds) :: rest
      else [c] :: (d :: ds) :: rest

/-- Cut a newline-free segment into maximal runs of one character class:
the result of `part.split(/(\s+|\b)/).filter(s => s !== '')`. -/
def chunkClasses : List Char → List (List Char)
  | [] => []
  | c :: rest => chunkRun c (chunkClasses rest)

/-- `text.split(/(\n)/)`: split on newlines, keeping each `'\n'` as its own
list entry (the captured separator), with the surrounding — possibly
empty — segments. -/
def splitNewlines : List Char → List (List Char)
  | [] => [[]]
  | c :: rest =>
    if c = '\n' then [] :: ['\n'] :: splitNewlines rest
    else
      match splitNewlines rest with
      | s :: ss => (c :: s) :: ss
      | [] => [[c]]

/-- `tokenize` of `src/unnamed/part_004`: newline separators become their own
tokens, non-empty segments are cut at whitespace/word boundaries. -/
def tokenize (text : List Char) : List (List Char) :=
  (splitNewlines text).flatMap fun part =>
    if part = ['\n'] then [part]
    else if part.length > 0 then chunkClasses part
    else []

/-! ## Tokenizer lemmas -/

theorem chunkRun_flatten (c : Char) (L : List (List Char)) :
    (chunkRun c L).flatten = c :: L.flatten := by
  match L with
  | [] => rfl
  | [] :: rest => rfl
  | (d :: ds) :: rest =>
    simp only [chunkRun]
    split <;> simp

theorem chunkClasses_flatten (l : List Char) :
    (chunkClasses l).flatten = l := by
  induction l with
  | nil => rfl
  | cons c rest ih => simp [chunkClasses, chunkRun_flatten, ih]

theorem chunkClasses_mem_subset {l t : List Char} (ht : t ∈ chunkClasses l)
    {c : Char} (hc : c ∈ t) : c ∈ l := by
  have : c ∈ (chunkClasses l).flatten := List.mem_flatten.2 ⟨t, ht, hc⟩
  rwa [chunkClasses_flatten] at this

theorem splitNewlines_flatten (l : List Char) :
    (splitNewlines l).flatten = l := by
  induction l with
  | nil => rfl
  | cons c rest ih =>
    simp only [splitNewlines]
    split
    · simp_all
    · rcases h : splitNewlines rest with _ | ⟨s, ss⟩
      · simp [h] at ih; simp [ih]
      · rw [h] at ih; simpa using ih

theorem splitNewlines_ne_nil (l : List Char) : splitNewlines l ≠ [] := by
  cases l with
  | nil => simp [splitNewlines]
  | cons c rest =>
    simp only [splitNewlines]
    split
    · simp
    · rcases h : splitNewlines rest with _ | ⟨s, ss⟩ <;> simp

/-- Structure of `splitNewlines`: the first entry is a newline-free segment,
and every entry is either the separator `['\n']` or a newline-free segment. -/
theorem splitNewlines_strong (l : List Char) :
    '\n' ∉ (splitNewlines l).headI ∧
      ∀ p ∈ splitNewlines l, p = ['\n'] ∨ '\n' ∉ p := by
  induction l with
  | nil =>
    refine ⟨by simp [splitNewlines], ?_⟩
    intro p hp; simp [splitNewlines] at hp; simp [hp]
  | cons c rest ih =>
    by_cases hc : c = '\n'
    · refine ⟨by simp [splitNewlines, hc], ?_⟩
      intro p hp
      simp only [splitNewlines, if_pos hc, List.mem_cons] at hp
      rcases hp with hp | hp | hp
      · right; simp [hp]
      · left; exact hp
      · exact ih.2 p hp
    · cases h : splitNewlines rest with
      | nil => exact absurd h (splitNewlines_ne_nil rest)
      | cons s ss =>
        have hs : '\n' ∉ s := by have := ih.1; rw [h] at this; simpa using this
        have hcons : splitNewlines (c :: rest) = (c :: s) :: ss := by
          simp only [splitNewlines, if_neg hc, h]
        constructor
        · rw [hcons]
          simp only [List.headI]
          intro hmem
          rcases List.mem_cons.1 hmem with h1 | h1
          · exact hc h1.symm
          · exact hs h1
        · intro p hp
          rw [hcons] at hp
          rcases List.mem_cons.1 hp with hp | hp
          · right
            rw [hp]
            intro hmem
            rcases List.mem_cons.1 hmem with h1 | h1
            · exact hc h1.symm
            · exact hs h1
          · exact ih.2 p (by rw [h]; exact List.mem_cons_of_mem _ hp)

/-- Every entry produced by `splitNewlines` is either the separator `['\n']`
or a newline-free segment. -/
theorem splitNewlines_spec (l : List Char) :
    ∀ p ∈ splitNewlines l, p = ['\n'] ∨ '\n' ∉ p :=
  (splitNewlines_strong l).2

/-- Flattening a flatMap whose every piece reconstructs its source entry. -/
theorem flatMap_flatten_eq (L : List (List Char))
    (f : List Char → List (List Char)) (hf : ∀ p ∈ L, (f p).flatten = p) :
    (L.flatMap f).flatten = L.flatten := by
  induction L with
  | nil => rfl
  | cons p ps ih =>
    simp only [List.flatMap_cons, List.flatten_append, List.flatten_cons]
    rw [hf p (List.mem_cons_self ..), ih (fun q hq => hf q (List.mem_cons_of_mem _ hq))]

/-- The tokenizer loses no characters: concatenating all tokens gives back the
input text. -/
theorem tokenize_flatten (text : List Char) :
    (tokenize text).flatten = text := by
  unfold tokenize
  rw [flatMap_flatten_eq, splitNewlines_flatten]
  intro p _
  by_cases h1 : p = ['\n']
  · simp [h1]
  · by_cases h2 : p.length > 0
    · simp [h1, h2, chunkClasses_flatten]
    · have : p = [] := List.length_eq_zero.1 (by omega)
      simp [h1, h2, this]

/-- Every token is either the isolated newline token or newline-free. -/
theorem tokenize_newline_tokens (text : List Char) :
    ∀ t ∈ tokenize text, t = ['\n'] ∨ '\n' ∉ t := by
  intro t ht
  unfold tokenize at ht
  rcases List.mem_flatMap.1 ht with ⟨p, hp, hmem⟩
  by_cases h1 : p = ['\n']
  · simp [h1] at hmem
    left; simp [hmem, h1]
  · by_cases h2 : p.length > 0
    · simp only [if_neg h1, if_pos h2] at hmem
      have hp' : p = ['\n'] ∨ '\n' ∉ p := splitNewlines_spec text p hp
      rcases hp' with hp' | hp'
      · exact absurd hp' h1
      · right; intro hc; exact hp' (chunkClasses_mem_subset hmem hc)
    · simp [h1, h2] at hmem

/-! ## Sequence diff engine (src/unnamed/part_004, `computeDiff`)

The source fills a `(n+1) × (m+1)` DP matrix with the standard LCS
recurrence (`dp[i][j] = 0` on the borders, `dp[i-1][j-1] + 1` on equal
tokens, `max` otherwise) and then backtracks from `(n, m)` with a
`while (i > 0 || j > 0)` loop whose branch cascade is reproduced verbatim
in `backtrack` below; the pushed operations are finally reversed. -/

/-- One edit operation `{type, value}` of the diff result. -/
inductive DiffOp
  | equal (v : List Char)
  | insert (v : List Char)
  | delete (v : List Char)
deriving DecidableEq, Repr

/-- Fuel-indexed evaluation of the DP recurrence; every recursive call
lowers both the fuel and the index sum `i + j`, so fuel `i + j` always
suffices, and the structural recursion on the fuel keeps the function
computable by the kernel. -/
def lcsAux (t1 t2 : List (List Char)) : Nat → Nat → Nat → Nat
  | 0, _, _ => 0
  | _ + 1, 0, _ => 0
  | _ + 1, _ + 1, 0 => 0
  | fuel + 1, i + 1, j + 1 =>
    if t1.getD i [] = t2.getD j [] then lcsAux t1 t2 fuel i j + 1
    else max (lcsAux t1 t2 fuel i (j + 1)) (lcsAux t1 t2 fuel (i + 1) j)

/-- The filled DP matrix `dp[i][j]` of `computeDiff` (LCS lengths of the
`i`-prefix of `tokens1` against the `j`-prefix of `tokens2`). -/
def lcs (t1 t2 : List (List Char)) (i j : Nat) : Nat := lcsAux t1 t2 (i + j) i j

/-- The backtrack loop of `computeDiff`, from cell `(i, j)` down to `(0, 0)`,
producing the operations in push order (end of the texts first):

* `i > 0 && j > 0 && tokens1[i-1] === tokens2[j-1]` → push `equal`;
* `j > 0 && (i === 0 || dp[i][j-1] >= dp[i-1][j])` → push `insert`;
* `i > 0 && (j === 0 || dp[i][j-1] < dp[i-1][j])` → push `delete`. -/
def backtrackAux (t1 t2 : List (List Char)) : Nat → Nat → Nat → List DiffOp
  | 0, _, _ => []
  | _ + 1, 0, 0 => []
  | fuel + 1, 0, j + 1 => .insert (t2.getD j []) :: backtrackAux t1 t2 fuel 0 j
  | fuel + 1, i + 1, 0 => .delete (t1.getD i []) :: backtrackAux t1 t2 fuel i 0
  | fuel + 1, i + 1, j + 1 =>
    if t1.getD i [] = t2.getD j [] then
      .equal (t1.getD i []) :: backtrackAux t1 t2 fuel i j
    else if lcs t1 t2 (i + 1) j ≥ lcs t1 t2 i (j + 1) then
      .insert (t2.getD j []) :: backtrackAux t1 t2 fuel (i + 1) j
    else
      .delete (t1.getD i []) :: backtrackAux t1 t2 fuel i (j + 1)

/-- The backtrack loop from cell `(i, j)`: the loop runs at most `i + j`
iterations (each branch decrements `i`, `j` or both), so fuel `i + j` is
exact. -/
def backtrack (t1 t2 : List (List Char)) (i j : Nat) : List DiffOp :=
  backtrackAux t1 t2 (i + j) i j

/-- Diff between two token sequences: the reversed backtrack of the full
matrix (the source's `return diffs.reverse()`). -/
def computeDiffTokens (t1 t2 : List (List Char)) : List DiffOp :=
  (backtrack t1 t2 t1.length t2.length).reverse

/-- `computeDiff` of `src/unnamed/part_004`: tokenize both texts and diff the
token sequences. -/
def computeDiff (original modified : List Char) : List DiffOp :=
  computeDiffTokens (tokenize original) (tokenize modified)

/-- Contribution of one operation to the original text (Equal and Delete
values). -/
def opOrig : DiffOp → List Char
  | .equal v => v
  | .delete v => v
  | .insert _ => []

/-- Contribution of one operation to the modified text (Equal and Insert
values). -/
def opIns : DiffOp → List Char
  | .equal v => v
  | .insert v => v
  | .delete _ => []

/-- Concatenation of the Equal+Delete values of a diff, in order. -/
def origText (ops : List DiffOp) : List Char := (ops.map opOrig).flatten

/-- Concatenation of the Equal+Insert values of a diff, in order. -/
def insText (ops : List DiffOp) : List Char := (ops.map opIns).flatten

theorem origText_append (xs ys : List DiffOp) :
    origText (xs ++ ys) = origText xs ++ origText ys := by
  simp [origText]

theorem insText_append (xs ys : List DiffOp) :
    insText (xs ++ ys) = insText xs ++ insText ys := by
  simp [insText]

theorem flatten_take_succ (l : List (List Char)) (n : Nat) (h : n < l.length) :
    (l.take (n + 1)).flatten = (l.take n).flatten ++ l[n] := by
  rw [List.take_succ, List.flatten_append]
  simp [List.getElem?_eq_getElem h]

/-- Round trip of the backtrack: reading the backtracked operations in
left-to-right order, the Equal+Delete values spell the first `i` tokens of
`t1` and the Equal+Insert values spell the first `j` tokens of `t2`. -/
theorem backtrack_restore (t1 t2 : List (List Char)) :
    ∀ k i j, i + j ≤ k → i ≤ t1.length → j ≤ t2.length →
      origText (backtrackAux t1 t2 k i j).reverse = (t1.take i).flatten ∧
      insText (backtrackAux t1 t2 k i j).reverse = (t2.take j).flatten := by
  intro k
  induction k with
  | zero =>
    intro i j hk _ _
    have hi : i = 0 := by omega
    have hj : j = 0 := by omega
    subst hi; subst hj
    simp [backtrackAux, origText, insText]
  | succ k ih =>
    intro i j hk hi hj
    match i, j with
    | 0, 0 => simp [backtrackAux, origText, insText]
    | 0, j + 1 =>
      have prev := ih 0 j (by omega) hi (by omega)
      have hjlt : j < t2.length := by omega
      have hget : t2[j]?.getD [] = t2[j] := by
        simp [List.getElem?_eq_getElem hjlt]
      simp only [backtrackAux, List.reverse_cons, origText_append, insText_append,
        prev.1, prev.2]
      constructor
      · simp [origText, opOrig]
      · rw [flatten_take_succ t2 j (by omega)]
        simp [insText, opIns, hget]
    | i + 1, 0 =>
      have prev := ih i 0 (by omega) (by omega) hj
      have hilt : i < t1.length := by omega
      have hget : t1[i]?.getD [] = t1[i] := by
        simp [List.getElem?_eq_getElem hilt]
      simp only [backtrackAux, List.reverse_cons, origText_append, insText_append,
        prev.1, prev.2]
      constructor
      · rw [flatten_take_succ t1 i (by omega)]
        simp [origText, opOrig, hget]
      · simp [insText, opIns]
    | i + 1, j + 1 =>
      have hilt : i < t1.length := by omega
      have hjlt : j < t2.length := by omega
      have hget1 : t1[i]?.getD [] = t1[i] := by
        simp [List.getElem?_eq_getElem hilt]
      have hget2 : t2[j]?.getD [] = t2[j] := by
        simp [List.getElem?_eq_getElem hjlt]
      by_cases heq : t1.getD i [] = t2.getD j []
      · have prev := ih i j (by omega) (by omega) (by omega)
        simp only [backtrackAux, if_pos heq, List.reverse_cons, origText_append,
          insText_append, prev.1, prev.2]
        constructor
        · rw [flatten_take_succ t1 i (by omega)]
          simp [origText, opOrig, hget1]
        · rw [flatten_take_succ t2 j (by omega)]
          simp only [insText, List.map_cons, List.map_nil, List.flatten_cons,
            List.flatten_nil, opIns, List.append_nil]
          rw [heq]
          simp [List.getD, hget2]
      · by_cases hge : lcs t1 t2 (i + 1) j ≥ lcs t1 t2 i (j + 1)
        · have prev := ih (i + 1) j (by omega) hi (by omega)
          simp only [backtrackAux, if_neg heq, if_pos hge, List.reverse_cons,
            origText_append, insText_append, prev.1, prev.2]
          constructor
          · simp [origText, opOrig]
          · rw [flatten_take_succ t2 j (by omega)]
            simp [insText, opIns, hget2]
        · have prev := ih i (j + 1) (by omega) (by omega) hj
          simp only [backtrackAux, if_neg heq, if_neg hge, List.reverse_cons,
            origText_append, insText_append, prev.1, prev.2]
          constructor
          · rw [flatten_take_succ t1 i (by omega)]
            simp [origText, opOrig, hget1]
          · simp [insText, opIns]

/-- Round trip at the token level. -/
theorem computeDiffTokens_restore (t1 t2 : List (List Char)) :
    origText (computeDiffTokens t1 t2) = t1.flatten ∧
    insText (computeDiffTokens t1 t2) = t2.flatten := by
  have h := backtrack_restore t1 t2 (t1.length + t2.length) t1.length t2.length
    (le_refl _) (le_refl _) (le_refl _)
  simpa [computeDiffTokens, backtrack, List.take_length] using h

/-! ## HTML text helpers (src/unnamed/part_004 / part_002)

`escapeHtml` chains five global `replace` calls (`&`, `<`, `>`, `"`, `'`).
Because none of the later targets occurs in an earlier replacement's output,
the chain is the per-character substitution below. `formatForDisplay` then
turns every `\n` into `<br>`. -/

/-- `escapeHtml` of the diff engine (same helper is inlined as
`escapeHtmlForDisplay` in the editor's click handler). -/
def escapeHtml (l : List Char) : List Char :=
  l.flatMap fun c =>
    if c = '&' then ("&amp;".data)
    else if c = '<' then ("&lt;".data)
    else if c = '>' then ("&gt;".data)
    else if c = '"' then ("&quot;".data)
    else if c = '\'' then ("&#039;".data)
    else [c]

/-- `str.replace(/\n/g, "<br>")`. -/
def newlinesToBr (l : List Char) : List Char :=
  l.flatMap fun c => if c = '\n' then ("<br>".data) else [c]

/-- `formatForDisplay`: escape HTML entities, then render newlines as
`<br>`. -/
def formatForDisplay (l : List Char) : List Char := newlinesToBr (escapeHtml l)

/-- `str.replace(/\n+$/, '')`: drop every trailing newline. -/
def trimTrailingNewlines (l : List Char) : List Char :=
  (l.reverse.dropWhile (· = '\n')).reverse

/-! ## Diff renderer (src/unnamed/part_004, `generateInteractiveDiffHtml`)

The renderer walks the diff, accumulating Delete values in `pendingDelete`
and Insert values in `pendingInsert`.  `flushPending` closes the accumulated
change into one interactive `<span class="diff-interactive"
contenteditable="false" data-state="modified" data-original=… data-modified=…>`
— a Change Unit — and `appendText` emits plain text, closing the current
`<div>` paragraph at each newline.  An inserted newline flushes first and
then becomes a structural paragraph break.

The embedding keeps the exact control flow but records the output as a
stream of structural events (`Item`) instead of raw HTML characters: a
Change-Unit span, a plain-text run (already `formatForDisplay`-ed), or a
paragraph break (the `</div><div>` boundary).  A `DiffUnit` carries the
decoded `data-original` / `data-modified` attribute values (the attributes
store them `escapeHtml`-encoded and `getAttribute` decodes them back), the
`data-state` attribute, and the span's rendered innerHTML. -/

/-- The `data-state` attribute of a Change Unit. -/
inductive DState
  | modified
  | original
deriving DecidableEq, Repr

/-- A rendered interactive Change-Unit span. -/
structure DiffUnit where
  state : DState
  original : List Char
  modified : List Char
  display : List Char
deriving DecidableEq, Repr

/-- The pure-deletion placeholder glyph (`[-]` marker span), identical in
`flushPending` (part_004) and in the toggle-back branch of
`handleEditorClick` (part_002); `pointer-events-none select-none` and the
enclosing `contenteditable="false"` span make it non-editable. -/
def delMarker : List Char :=
  ("<span class=\"text-zinc-500 text-[10px] select-none align-baseline mx-0.5 pointer-events-none\">[-]</span>".data)

/-- The pure-insertion placeholder glyph (`(추가됨)` marker span) used by the
toggle when `data-original` is empty. -/
def addedMarker : List Char :=
  ("<span class=\"text-zinc-500 text-[10px] select-none align-baseline mx-0.5 pointer-events-none\">(추가됨)</span>".data)

/-- Build the Change-Unit span exactly as `flushPending` does: pure addition
and substitution show `formatForDisplay(pendingInsert)`, pure deletion shows
the `[-]` marker; `data-state` starts as `modified`. -/
def mkUnit (pendingDelete pendingInsert : List Char) : DiffUnit :=
  if pendingInsert ≠ [] ∧ pendingDelete = [] then
    ⟨.modified, pendingDelete, pendingInsert, formatForDisplay pendingInsert⟩
  else if pendingInsert = [] ∧ pendingDelete ≠ [] then
    ⟨.modified, pendingDelete, pendingInsert, delMarker⟩
  else
    ⟨.modified, pendingDelete, pendingInsert, formatForDisplay pendingInsert⟩

/-- One structural output event of the renderer. -/
inductive Item
  | text (s : List Char)
  | unit (u : DiffUnit)
  | lineBreak
deriving DecidableEq, Repr

/-- Renderer state: emitted events plus the two pending accumulators. -/
structure RenderState where
  items : List Item
  pendingDelete : List Char
  pendingInsert : List Char
deriving DecidableEq, Repr

/-- `flushPending`: no-op when nothing is pending, otherwise emit one Change
Unit and clear both accumulators. -/
def flushPending (st : RenderState) : RenderState :=
  if st.pendingDelete = [] ∧ st.pendingInsert = [] then st
  else
    { items := st.items ++ [.unit (mkUnit st.pendingDelete st.pendingInsert)],
      pendingDelete := [], pendingInsert := [] }

/-- `text.split('\n')` (plain split, separators dropped). -/
def splitLines : List Char → List (List Char)
  | [] => [[]]
  | c :: rest =>
    if c = '\n' then [] :: splitLines rest
    else
      match splitLines rest with
      | s :: ss => (c :: s) :: ss
      | [] => [[c]]

/-- Events of `appendText` for one split-line list: the first part opens no
new paragraph; every later part is preceded by a paragraph break (the
`htmlBuilder += <div>…</div>` closing of the current line); empty parts
emit no text run. -/
def appendItems : List (List Char) → List Item
  | [] => []
  | p :: rest =>
    (if p = [] then [] else [.text (formatForDisplay p)]) ++
      rest.flatMap fun q =>
        Item.lineBreak :: (if q = [] then [] else [.text (formatForDisplay q)])

/-- `appendText(text)`: append text to the current line, turning contained
newlines into structural paragraph breaks. -/
def appendText (st : RenderState) (text : List Char) : RenderState :=
  { st with items := st.items ++ appendItems (splitLines text) }

/-- One iteration of the renderer's `for (const part of diffs)` loop:

* Equal → flush, then append the value as plain text;
* Delete → accumulate (even across deleted newlines);
* Insert of exactly a newline token → flush **first**, then a structural
  paragraph break; any other Insert accumulates. -/
def renderStep (st : RenderState) (op : DiffOp) : RenderState :=
  match op with
  | .equal v => appendText (flushPending st) v
  | .delete v => { st with pendingDelete := st.pendingDelete ++ v }
  | .insert v =>
    if v = ['\n'] then appendText (flushPending st) v
    else { st with pendingInsert := st.pendingInsert ++ v }

/-- The renderer's event stream for a diff: fold the loop over the
operations, then the final `flushPending()`. -/
def renderItems (ops : List DiffOp) : List Item :=
  (flushPending (ops.foldl renderStep ⟨[], [], []⟩)).items

/-- `generateInteractiveDiffHtml` of `src/unnamed/part_004`, at the
structural level: diff the two texts and render the event stream. -/
def generateInteractiveDiff (originalText modifiedText : List Char) : List Item :=
  renderItems (computeDiff originalText modifiedText)

/-- The Change Units contained in an event stream. -/
def unitsOf (items : List Item) : List DiffUnit :=
  items.filterMap fun it =>
    match it with
    | .unit u => some u
    | _ => none

/-! ## Change-Unit toggle (src/unnamed/part_002, `handleEditorClick`)

A click on a `.diff-interactive` span reads `data-state`, `data-original`
and `data-modified`, flips the state and rewrites the span's innerHTML:
switching to Original shows `data-original` (or the `(추가됨)` placeholder
when it is empty), switching back to Modified shows `data-modified` (or the
`[-]` placeholder when it is empty); shown text is HTML-escaped, has its
trailing newlines trimmed (`.replace(/\n+$/, '')`) and renders `\n` as
`<br>`. -/

/-- The toggle transition applied to a Change Unit by `handleEditorClick`. -/
def toggleUnit (u : DiffUnit) : DiffUnit :=
  if u.state = .modified then
    { u with
      state := .original,
      display :=
        if u.original = [] then addedMarker
        else formatForDisplay (trimTrailingNewlines u.original) }
  else
    { u with
      state := .modified,
      display :=
        if u.modified = [] then delMarker
        else formatForDisplay (trimTrailingNewlines u.modified) }

/-! ## Renderer invariants -/

/-- A Change Unit as produced by some flush of the renderer whose pending
insert text is newline-free and not both accumulators empty. -/
def GoodUnit (u : DiffUnit) : Prop :=
  ∃ pd pi, (pd ≠ [] ∨ pi ≠ []) ∧ '\n' ∉ pi ∧ u = mkUnit pd pi

/-- Invariant carried through the renderer loop: the pending insert text is
newline-free and every emitted unit is good. -/
def RInv (st : RenderState) : Prop :=
  '\n' ∉ st.pendingInsert ∧ ∀ u ∈ unitsOf st.items, GoodUnit u

/-- An operation whose Insert value (if any) is a token of the tokenizer:
either the newline token or newline-free. -/
def GoodOp (op : DiffOp) : Prop :=
  ∀ v, op = .insert v → v = ['\n'] ∨ '\n' ∉ v

theorem unitsOf_append (a b : List Item) :
    unitsOf (a ++ b) = unitsOf a ++ unitsOf b := by
  simp [unitsOf]

theorem unitsOf_appendItems (ps : List (List Char)) :
    unitsOf (appendItems ps) = [] := by
  cases ps with
  | nil => rfl
  | cons p rest =>
    simp only [appendItems, unitsOf, List.filterMap_append, List.append_eq_nil,
      List.filterMap_eq_nil_iff]
    constructor
    · intro it hit
      split at hit <;> simp_all
    · intro it hit
      rcases List.mem_flatMap.1 hit with ⟨q, _, hmem⟩
      rcases List.mem_cons.1 hmem with h | h
      · simp [h]
      · split at h <;> simp_all

theorem mkUnit_state (pd pi : List Char) : (mkUnit pd pi).state = .modified := by
  unfold mkUnit; split <;> try split
  all_goals rfl

theorem mkUnit_original (pd pi : List Char) : (mkUnit pd pi).original = pd := by
  unfold mkUnit; split <;> try split
  all_goals rfl

theorem mkUnit_modified (pd pi : List Char) : (mkUnit pd pi).modified = pi := by
  unfold mkUnit; split <;> try split
  all_goals rfl

theorem mkUnit_display_ins (pd pi : List Char) (h : pi ≠ []) :
    (mkUnit pd pi).display = formatForDisplay pi := by
  unfold mkUnit
  split
  · rfl
  · split
    · exact absurd (by assumption : pi = [] ∧ pd ≠ []).1 h
    · rfl

theorem mkUnit_display_del (pd pi : List Char) (h : pi = []) (h2 : pd ≠ []) :
    (mkUnit pd pi).display = delMarker := by
  unfold mkUnit
  split
  · rename_i hcond; exact absurd hcond.1 (by simp [h])
  · split
    · rfl
    · rename_i _ hcond; exact absurd ⟨h, h2⟩ hcond

theorem flushPending_inv {st : RenderState} (h : RInv st) :
    RInv (flushPending st) := by
  unfold flushPending
  split
  · exact h
  · rename_i hne
    refine ⟨by simp, ?_⟩
    intro u hu
    simp only [unitsOf_append] at hu
    rcases List.mem_append.1 hu with hu | hu
    · exact h.2 u hu
    · have : u = mkUnit st.pendingDelete st.pendingInsert := by
        simpa [unitsOf] using hu
      exact ⟨st.pendingDelete, st.pendingInsert, by tauto, h.1, this⟩

theorem appendText_inv {st : RenderState} (h : RInv st) (text : List Char) :
    RInv (appendText st text) := by
  refine ⟨h.1, ?_⟩
  intro u hu
  simp only [appendText, unitsOf_append, unitsOf_appendItems, List.append_nil] at hu
  exact h.2 u hu

theorem renderStep_inv {st : RenderState} {op : DiffOp} (h : RInv st)
    (hop : GoodOp op) : RInv (renderStep st op) := by
  match op with
  | .equal v => exact appendText_inv (flushPending_inv h) v
  | .delete v => exact ⟨h.1, h.2⟩
  | .insert v =>
    simp only [renderStep]
    split
    · exact appendText_inv (flushPending_inv h) v
    · rename_i hne
      refine ⟨?_, h.2⟩
      intro hc
      rcases List.mem_append.1 hc with hc | hc
      · exact h.1 hc
      · rcases hop v rfl with h1 | h1
        · exact hne h1
        · exact h1 hc

theorem foldl_renderStep_inv {st : RenderState} (h : RInv st)
    {ops : List DiffOp} (hops : ∀ op ∈ ops, GoodOp op) :
    RInv (ops.foldl renderStep st) := by
  induction ops generalizing st with
  | nil => exact h
  | cons op rest ih =>
    exact ih (renderStep_inv h (hops op (List.mem_cons_self ..)))
      (fun o ho => hops o (List.mem_cons_of_mem _ ho))

/-- Insert operations in the backtrack only carry tokens of `t2`. -/
theorem backtrack_insert_values (t1 t2 : List (List Char)) :
    ∀ k i j, j ≤ t2.length →
      ∀ v, DiffOp.insert v ∈ backtrackAux t1 t2 k i j → v ∈ t2 := by
  intro k
  induction k with
  | zero =>
    intro i j _ v hv
    simp [backtrackAux] at hv
  | succ k ih =>
    intro i j hj v hv
    match i, j with
    | 0, 0 => simp [backtrackAux] at hv
    | 0, j + 1 =>
      simp only [backtrackAux, List.mem_cons] at hv
      rcases hv with hv | hv
      · have : v = t2.getD j [] := by injection hv
        rw [this, List.getD_eq_getElem t2 [] (by omega)]
        exact List.getElem_mem _
      · exact ih 0 j (by omega) v hv
    | i + 1, 0 =>
      simp only [backtrackAux, List.mem_cons] at hv
      rcases hv with hv | hv
      · exact absurd hv (by simp)
      · exact ih i 0 hj v hv
    | i + 1, j + 1 =>
      simp only [backtrackAux] at hv
      split at hv
      · rcases List.mem_cons.1 hv with hv | hv
        · exact absurd hv (by simp)
        · exact ih i j (by omega) v hv
      · split at hv
        · rcases List.mem_cons.1 hv with hv | hv
          · have : v = t2.getD j [] := by injection hv
            rw [this, List.getD_eq_getElem t2 [] (by omega)]
            exact List.getElem_mem _
          · exact ih (i + 1) j (by omega) v hv
        · rcases List.mem_cons.1 hv with hv | hv
          · exact absurd hv (by simp)
          · exact ih i (j + 1) hj v hv

/-- Every operation of a `computeDiff` result is `Good`: its Insert value (if
any) is either the newline token or newline-free. -/
theorem computeDiff_good_ops (a b : List Char) :
    ∀ op ∈ computeDiff a b, GoodOp op := by
  intro op hop v hv
  subst hv
  have hmem : DiffOp.insert v ∈
      backtrackAux (tokenize a) (tokenize b)
        ((tokenize a).length + (tokenize b).length)
        (tokenize a).length (tokenize b).length := by
    simpa [computeDiff, computeDiffTokens, backtrack] using hop
  have hv2 : v ∈ tokenize b :=
    backtrack_insert_values (tokenize a) (tokenize b)
      ((tokenize a).length + (tokenize b).length) _ _ (le_refl _) v hmem
  exact tokenize_newline_tokens b v hv2

/-- Every Change Unit the renderer emits for a diff of two texts is good:
some flush produced it, with a newline-free insert accumulator and not both
accumulators empty. -/
theorem generateInteractiveDiff_units (a b : List Char) :
    ∀ u ∈ unitsOf (generateInteractiveDiff a b), GoodUnit u := by
  have hinit : RInv ⟨[], [], []⟩ := ⟨by simp, by intro u hu; simp [unitsOf] at hu⟩
  have hfold := foldl_renderStep_inv hinit (computeDiff_good_ops a b)
  have hfin := flushPending_inv hfold
  intro u hu
  exact hfin.2 u hu

/-- `formatForDisplay` output never contains a raw newline (newlines become
the four characters `<br>`). -/
theorem formatForDisplay_no_newline (l : List Char) :
    '\n' ∉ formatForDisplay l := by
  intro h
  rcases List.mem_flatMap.1 h with ⟨c, _, hmem⟩
  by_cases hc : c = '\n'
  · rw [if_pos hc] at hmem
    simp at hmem
  · rw [if_neg hc] at hmem
    simp at hmem
    exact hc hmem.symm

theorem delMarker_no_newline : '\n' ∉ delMarker := by decide

theorem trimTrailingNewlines_of_no_newline {l : List Char} (h : '\n' ∉ l) :
    trimTrailingNewlines l = l := by
  unfold trimTrailingNewlines
  rw [List.dropWhile_eq_self_iff.2, List.reverse_reverse]
  intro hl
  simp only [decide_eq_true_eq]
  intro hc
  exact h (by rw [← hc]; exact List.mem_reverse.1 (List.get_mem l.reverse 0 hl))

/-! ## Document history (src/unnamed/part_002 and src/components/Editor.tsx)

`historyRef` holds a list of `{html, caret}` snapshots with a current index
`historyIndexRef`.  `saveSnapshot` deduplicates against the entry at the
current index, truncates any redo branch (`slice(0, currentIndex + 1)`),
pushes, and drops the oldest entry when the stack exceeds 100.  `undo` /
`redo` move the index by one inside the bounds and restore that snapshot's
html and caret (the DOM caret is restored by `setCaretGlobalPosition`,
modelled as setting the caret offset). -/

/-- One undo/redo snapshot: serialized content plus caret offset. -/
structure HistoryState where
  html : List Char
  caret : Nat
deriving DecidableEq, Repr

/-- The editor-session state the history machinery acts on. -/
structure EditorState where
  history : List HistoryState
  index : Nat
  html : List Char
  caret : Nat
deriving DecidableEq, Repr

/-- `saveSnapshot(html, caret)` of the editor. -/
def saveSnapshot (st : EditorState) (html : List Char) (caret : Nat) : EditorState :=
  let skip : Bool :=
    match st.history.get? st.index with
    | some last => last.html == html && last.caret == caret
    | none => false
  if skip then st
  else
    let pushed := st.history.take (st.index + 1) ++ [⟨html, caret⟩]
    let newHistory := if pushed.length > 100 then pushed.drop 1 else pushed
    { st with history := newHistory, index := newHistory.length - 1 }

/-- `undo()` of the editor: guarded by `historyIndexRef.current > 0`. -/
def undo (st : EditorState) : EditorState :=
  if st.index > 0 then
    let newIndex := st.index - 1
    let prev := st.history.getD newIndex ⟨[], 0⟩
    { st with index := newIndex, html := prev.html, caret := prev.caret }
  else st

/-- `redo()` of the editor: guarded by
`historyIndexRef.current < historyRef.current.length - 1`. -/
def redo (st : EditorState) : EditorState :=
  if st.index < st.history.length - 1 then
    let newIndex := st.index + 1
    let next := st.history.getD newIndex ⟨[], 0⟩
    { st with index := newIndex, html := next.html, caret := next.caret }
  else st

/-! ## AI revision flow (src/unnamed/part_002, `runAIRevision`)

After the guards, the flow clears the typing-debounce timer and takes a
pre-flight snapshot of the current content and caret, then awaits the
provider.  The provider call observes the `AbortController`: user
cancellation rejects with an abort error that the `catch` block recognises
and swallows (`console.log`, no alert); other errors are alerted; only the
success path mutates the document (splices in the rendered diff fragment,
moves the caret after it) and pushes the post-revision snapshot.

The asynchronous boundary is modelled by a `ProviderOutcome` argument; the
DOM range splice (`targetRange.deleteContents(); …insertNode(frag)`) and
the caret position after the fragment are outside the embedded code and are
passed in as the `splice` function and `caretAfter`.  The returned `Bool`
records whether an error alert was surfaced to the user. -/

/-- Outcome of the awaited `generateRevision` call. -/
inductive ProviderOutcome
  | success (revised : List Char)
  | cancelled
  | failure

/-- `text.trim()`: strip JS whitespace from both ends. -/
def trimJS (l : List Char) : List Char :=
  ((l.dropWhile isSpaceJS).reverse.dropWhile isSpaceJS).reverse

/-- `runAIRevision` of `src/unnamed/part_002`, from the point where the
target range and editor are known to exist. -/
def runAIRevision (st : EditorState) (textToRevise : List Char)
    (splice : List Item → List Char) (caretAfter : Nat)
    (outcome : ProviderOutcome) : EditorState × Bool :=
  let st1 := saveSnapshot st st.html st.caret
  if trimJS textToRevise = [] then
    (st1, true)
  else
    match outcome with
    | .cancelled => (st1, false)
    | .failure => (st1, true)
    | .success revised =>
      let diffFragment := generateInteractiveDiff textToRevise revised
      let newHtml := splice diffFragment
      let st2 := { st1 with html := newHtml, caret := caretAfter }
      (saveSnapshot st2 newHtml caretAfter, false)

/-! ## Editor-state helper lemmas -/

theorem saveSnapshot_keeps (st : EditorState) (h : List Char) (c : Nat) :
    (saveSnapshot st h c).html = st.html ∧ (saveSnapshot st h c).caret = st.caret := by
  unfold saveSnapshot
  dsimp only
  split <;> exact ⟨rfl, rfl⟩

theorem saveSnapshot_skip (st : EditorState) (h : List Char) (c : Nat)
    (hsk : st.history.get? st.index = some ⟨h, c⟩) :
    saveSnapshot st h c = st := by
  unfold saveSnapshot
  rw [hsk]
  simp

/-! ## The claims -/

/-- C1. For all strings `a` and `b`, the diff of their token sequences
satisfies the round-trip invariant: concatenating the values of the Equal
and Delete operations, in order, reconstructs `a` exactly, and concatenating
the values of the Equal and Insert operations, in order, reconstructs `b`
exactly. -/
theorem C1_round_trip (a b : List Char) :
    origText (computeDiff a b) = a ∧ insText (computeDiff a b) = b := by
  have h := computeDiffTokens_restore (tokenize a) (tokenize b)
  constructor
  · show origText (computeDiffTokens (tokenize a) (tokenize b)) = a
    rw [h.1, tokenize_flatten]
  · show insText (computeDiffTokens (tokenize a) (tokenize b)) = b
    rw [h.2, tokenize_flatten]

/-- C2. For any two input strings (including ones containing newlines),
rendering the diff never produces a Change Unit whose Revised-state rendered
content contains a raw newline: the `data-modified` text and the displayed
innerHTML of every emitted unit are newline-free, and an inserted newline
token makes the renderer flush the pending change into a closed Change Unit
first and then emit the newline as a structural paragraph break outside any
Change Unit. -/
theorem C2_no_newline_in_unit (a b : List Char) (u : DiffUnit)
    (hu : u ∈ unitsOf (generateInteractiveDiff a b)) (st : RenderState) :
    ('\n' ∉ u.modified ∧ '\n' ∉ u.display) ∧
      renderStep st (.insert ['\n']) = appendText (flushPending st) ['\n'] := by
  obtain ⟨pd, pi, hne, hnl, hequ⟩ := generateInteractiveDiff_units a b u hu
  subst hequ
  refine ⟨⟨by rwa [mkUnit_modified], ?_⟩, by simp [renderStep]⟩
  by_cases hpi : pi = []
  · have hpd : pd ≠ [] := by tauto
    rw [mkUnit_display_del pd pi hpi hpd]
    exact delMarker_no_newline
  · rw [mkUnit_display_ins pd pi hpi]
    exact formatForDisplay_no_newline pi

/-- Witness for C2 at a concrete substitution unit. -/
theorem C2_witness :
    ((⟨.modified, ['x'], ['y'], ['y']⟩ : DiffUnit) ∈
        unitsOf (generateInteractiveDiff ['x'] ['y'])) ∧
      (('\n' ∉ (⟨.modified, ['x'], ['y'], ['y']⟩ : DiffUnit).modified ∧
          '\n' ∉ (⟨.modified, ['x'], ['y'], ['y']⟩ : DiffUnit).display) ∧
        renderStep ⟨[], [], []⟩ (.insert ['\n']) =
          appendText (flushPending ⟨[], [], []⟩) ['\n']) :=
  ⟨by decide, C2_no_newline_in_unit ['x'] ['y'] _ (by decide) ⟨[], [], []⟩⟩

/-- C3. In the LCS backtrack, whenever a left-move (emit Insert) and an
up-move (emit Delete) are both available from a cell whose predecessor
scores are equal (unequal tokens, `i, j > 0`, `dp[i][j-1] = dp[i-1][j]`),
the Insert is emitted before the Delete when scanning from the end backward,
and the returned operation sequence is the reverse of the backtrack order. -/
theorem C3_tie_break (t1 t2 : List (List Char)) (i j : Nat) (a b : List Char)
    (hne : t1.getD i [] ≠ t2.getD j [])
    (heq : lcs t1 t2 (i + 1) j = lcs t1 t2 i (j + 1)) :
    backtrack t1 t2 (i + 1) (j + 1) =
        .insert (t2.getD j []) :: backtrack t1 t2 (i + 1) j ∧
      computeDiff a b =
        (backtrack (tokenize a) (tokenize b)
          (tokenize a).length (tokenize b).length).reverse := by
  refine ⟨?_, rfl⟩
  show (if t1.getD i [] = t2.getD j [] then _ else _) = _
  rw [if_neg hne, if_pos (le_of_eq heq.symm)]
  rfl

/-- Witness for C3 at the one-token texts `a` / `b`. -/
theorem C3_witness :
    (([['a']] : List (List Char)).getD 0 [] ≠ ([['b']] : List (List Char)).getD 0 []) ∧
      lcs [['a']] [['b']] 1 0 = lcs [['a']] [['b']] 0 1 ∧
      (backtrack [['a']] [['b']] 1 1 =
          .insert (([['b']] : List (List Char)).getD 0 []) :: backtrack [['a']] [['b']] 1 0 ∧
        computeDiff ['a'] ['b'] =
          (backtrack (tokenize ['a']) (tokenize ['b'])
            (tokenize ['a']).length (tokenize ['b']).length).reverse) :=
  ⟨by decide, by decide,
    C3_tie_break [['a']] [['b']] 0 0 ['a'] ['b'] (by decide) (by decide)⟩

/-- A trivial splice function used to instantiate `runAIRevision` on
concrete inputs. -/
def spliceConst : List Item → List Char := fun _ => []

/-- `saveSnapshot` when the dedup check fails: truncate the redo branch,
push, drop the oldest entry past 100, and point the index at the tail. -/
theorem saveSnapshot_of_ne (st : EditorState) (html : List Char) (caret : Nat)
    (h : st.history.get? st.index ≠ some ⟨html, caret⟩) :
    saveSnapshot st html caret =
      { st with
        history :=
          if (st.history.take (st.index + 1) ++ [(⟨html, caret⟩ : HistoryState)]).length > 100
          then (st.history.take (st.index + 1) ++ [(⟨html, caret⟩ : HistoryState)]).drop 1
          else st.history.take (st.index + 1) ++ [(⟨html, caret⟩ : HistoryState)],
        index :=
          (if (st.history.take (st.index + 1) ++ [(⟨html, caret⟩ : HistoryState)]).length > 100
           then (st.history.take (st.index + 1) ++ [(⟨html, caret⟩ : HistoryState)]).drop 1
           else st.history.take (st.index + 1) ++ [(⟨html, caret⟩ : HistoryState)]).length - 1 } := by
  unfold saveSnapshot
  cases hg : st.history.get? st.index with
  | none => rfl
  | some last =>
    have hb : (last.html == html && last.caret == caret) = false := by
      by_contra hbne
      have hb' : (last.html == html && last.caret == caret) = true := by
        revert hbne
        cases last.html == html && last.caret == caret <;> simp
      rw [Bool.and_eq_true, beq_iff_eq, beq_iff_eq] at hb'
      apply h
      rw [hg]
      cases last
      simp_all
    dsimp only
    rw [hb]
    rfl

/-- C4 (counterexample to the claim as stated). Cancelling a revision is not
entirely invisible in the history: when the current content differs from the
snapshot at the current index, the pre-flight `saveSnapshot` — taken before
the provider is called — has already pushed an entry, so the stack length
differs before and after the cancelled attempt. -/
theorem C4_counterexample :
    (runAIRevision ⟨[⟨['a'], 0⟩], 0, ['a', 'b'], 2⟩ ['x']
        spliceConst 0 .cancelled).1.history.length ≠
      (⟨[⟨['a'], 0⟩], 0, ['a', 'b'], 2⟩ : EditorState).history.length := by
  decide

/-- C4 (amended). If a revision request is cancelled before the provider
resolves, the attempt is not surfaced as a failure, the document content and
caret are unchanged, no fragment is inserted and no snapshot is pushed after
the cancellation: the resulting state is exactly the pre-flight snapshot of
the pre-revision state taken before calling the provider; in particular,
whenever the current content and caret equal the entry at the current
history index (so the pre-flight save deduplicates), the document content
and the undo stack are identical before and after the attempt. -/
theorem C4_cancelled_no_op (st : EditorState) (text : List Char)
    (splice : List Item → List Char) (caretAfter : Nat)
    (htext : trimJS text ≠ []) :
    (runAIRevision st text splice caretAfter .cancelled).2 = false ∧
      (runAIRevision st text splice caretAfter .cancelled).1 =
        saveSnapshot st st.html st.caret ∧
      (runAIRevision st text splice caretAfter .cancelled).1.html = st.html ∧
      (runAIRevision st text splice caretAfter .cancelled).1.caret = st.caret ∧
      (st.history.get? st.index = some ⟨st.html, st.caret⟩ →
        runAIRevision st text splice caretAfter .cancelled = (st, false)) := by
  have hrun : runAIRevision st text splice caretAfter .cancelled =
      (saveSnapshot st st.html st.caret, false) := by
    unfold runAIRevision
    rw [if_neg htext]
  refine ⟨by rw [hrun], by rw [hrun], ?_, ?_, ?_⟩
  · rw [hrun]
    exact (saveSnapshot_keeps st _ _).1
  · rw [hrun]
    exact (saveSnapshot_keeps st _ _).2
  · intro hidx
    rw [hrun, saveSnapshot_skip st _ _ hidx]

/-- Witness for C4's amended theorem, at a state whose current content and
caret match the current history entry. -/
theorem C4_witness :
    trimJS ['x'] ≠ [] ∧
      ((runAIRevision ⟨[⟨['a'], 0⟩], 0, ['a'], 0⟩ ['x'] spliceConst 0 .cancelled).2 = false ∧
        (runAIRevision ⟨[⟨['a'], 0⟩], 0, ['a'], 0⟩ ['x'] spliceConst 0 .cancelled).1 =
          saveSnapshot ⟨[⟨['a'], 0⟩], 0, ['a'], 0⟩
            (⟨[⟨['a'], 0⟩], 0, ['a'], 0⟩ : EditorState).html
            (⟨[⟨['a'], 0⟩], 0, ['a'], 0⟩ : EditorState).caret ∧
        (runAIRevision ⟨[⟨['a'], 0⟩], 0, ['a'], 0⟩ ['x'] spliceConst 0 .cancelled).1.html =
          (⟨[⟨['a'], 0⟩], 0, ['a'], 0⟩ : EditorState).html ∧
        (runAIRevision ⟨[⟨['a'], 0⟩], 0, ['a'], 0⟩ ['x'] spliceConst 0 .cancelled).1.caret =
          (⟨[⟨['a'], 0⟩], 0, ['a'], 0⟩ : EditorState).caret ∧
        ((⟨[⟨['a'], 0⟩], 0, ['a'], 0⟩ : EditorState).history.get?
              (⟨[⟨['a'], 0⟩], 0, ['a'], 0⟩ : EditorState).index =
            some ⟨(⟨[⟨['a'], 0⟩], 0, ['a'], 0⟩ : EditorState).html,
              (⟨[⟨['a'], 0⟩], 0, ['a'], 0⟩ : EditorState).caret⟩ →
          runAIRevision ⟨[⟨['a'], 0⟩], 0, ['a'], 0⟩ ['x'] spliceConst 0 .cancelled =
            (⟨[⟨['a'], 0⟩], 0, ['a'], 0⟩, false))) :=
  ⟨by decide, C4_cancelled_no_op ⟨[⟨['a'], 0⟩], 0, ['a'], 0⟩ ['x'] spliceConst 0 (by decide)⟩

/-- C5. The history stack is bounded: pushing keeps at most 100 snapshots
and, at full capacity with the index at the tail and a genuinely new
snapshot, the oldest entry is discarded; `undo` at the first entry and
`redo` at the last entry leave document, caret and index unchanged. -/
theorem C5_history_bounds (st : EditorState) (html : List Char) (caret : Nat)
    (hcap : st.history.length ≤ 100) :
    ((saveSnapshot st html caret).history.length ≤ 100) ∧
      (st.history.length = 100 → st.index = 99 →
        st.history.get? st.index ≠ some ⟨html, caret⟩ →
        (saveSnapshot st html caret).history =
            st.history.drop 1 ++ [⟨html, caret⟩] ∧
          (saveSnapshot st html caret).index = 99) ∧
      (st.index = 0 → undo st = st) ∧
      (st.index = st.history.length - 1 → redo st = st) := by
  refine ⟨?_, ?_, ?_, ?_⟩
  · by_cases hsk : st.history.get? st.index = some ⟨html, caret⟩
    · rw [saveSnapshot_skip st html caret hsk]
      exact hcap
    · rw [saveSnapshot_of_ne st html caret hsk]
      have hlen : (st.history.take (st.index + 1) ++ [(⟨html, caret⟩ : HistoryState)]).length ≤ 101 := by
        simp only [List.length_append, List.length_take, List.length_cons,
          List.length_nil]
        omega
      dsimp only
      split
      · simp only [List.length_drop]
        omega
      · omega
  · intro h100 h99 hsk
    have heq := saveSnapshot_of_ne st html caret hsk
    have htake : st.history.take (st.index + 1) = st.history := by
      apply List.take_of_length_le
      omega
    rw [htake] at heq
    have hgt : (st.history ++ [(⟨html, caret⟩ : HistoryState)]).length > 100 := by
      simp only [List.length_append, List.length_cons, List.length_nil]
      omega
    rw [if_pos hgt] at heq
    constructor
    · rw [heq]
      exact List.drop_append_of_le_length (by omega)
    · rw [heq]
      dsimp only
      rw [List.drop_append_of_le_length (by omega)]
      simp only [List.length_append, List.length_drop, List.length_cons,
        List.length_nil]
      omega
  · intro h0
    unfold undo
    rw [h0]
    simp
  · intro hl
    unfold redo
    rw [hl]
    simp

/-- Witness for C5 at a full (100-entry) history with the index at the
tail. -/
theorem C5_witness :
    (⟨List.replicate 100 ⟨['a'], 0⟩, 99, ['a'], 0⟩ : EditorState).history.length ≤ 100 ∧
      (((saveSnapshot ⟨List.replicate 100 ⟨['a'], 0⟩, 99, ['a'], 0⟩ ['b'] 1).history.length ≤ 100) ∧
        ((⟨List.replicate 100 ⟨['a'], 0⟩, 99, ['a'], 0⟩ : EditorState).history.length = 100 →
          (⟨List.replicate 100 ⟨['a'], 0⟩, 99, ['a'], 0⟩ : EditorState).index = 99 →
          (⟨List.replicate 100 ⟨['a'], 0⟩, 99, ['a'], 0⟩ : EditorState).history.get?
              (⟨List.replicate 100 ⟨['a'], 0⟩, 99, ['a'], 0⟩ : EditorState).index ≠
            some ⟨['b'], 1⟩ →
          (saveSnapshot ⟨List.replicate 100 ⟨['a'], 0⟩, 99, ['a'], 0⟩ ['b'] 1).history =
              (⟨List.replicate 100 ⟨['a'], 0⟩, 99, ['a'], 0⟩ : EditorState).history.drop 1 ++
                [⟨['b'], 1⟩] ∧
            (saveSnapshot ⟨List.replicate 100 ⟨['a'], 0⟩, 99, ['a'], 0⟩ ['b'] 1).index = 99) ∧
        ((⟨List.replicate 100 ⟨['a'], 0⟩, 99, ['a'], 0⟩ : EditorState).index = 0 →
          undo ⟨List.replicate 100 ⟨['a'], 0⟩, 99, ['a'], 0⟩ =
            ⟨List.replicate 100 ⟨['a'], 0⟩, 99, ['a'], 0⟩) ∧
        ((⟨List.replicate 100 ⟨['a'], 0⟩, 99, ['a'], 0⟩ : EditorState).index =
            (⟨List.replicate 100 ⟨['a'], 0⟩, 99, ['a'], 0⟩ : EditorState).history.length - 1 →
          redo ⟨List.replicate 100 ⟨['a'], 0⟩, 99, ['a'], 0⟩ =
            ⟨List.replicate 100 ⟨['a'], 0⟩, 99, ['a'], 0⟩)) :=
  ⟨by decide, C5_history_bounds ⟨List.replicate 100 ⟨['a'], 0⟩, 99, ['a'], 0⟩ ['b'] 1 (by decide)⟩

/-- C6. The tokenizer splits on newline characters first, preserving each
newline as its own single-character token — a newline never occurs inside
any other token — it loses no characters, and the empty string yields the
empty token sequence. -/
theorem C6_tokenizer (text : List Char) (t : List Char) (ht : t ∈ tokenize text) :
    (t = ['\n'] ∨ '\n' ∉ t) ∧ tokenize ([] : List Char) = [] ∧
      (tokenize text).flatten = text :=
  ⟨tokenize_newline_tokens text t ht, rfl, tokenize_flatten text⟩

/-- Witness for C6 at the text `a\nb` and its newline token. -/
theorem C6_witness :
    (['\n'] ∈ tokenize ['a', '\n', 'b']) ∧
      (((['\n'] : List Char) = ['\n'] ∨ '\n' ∉ (['\n'] : List Char)) ∧
        tokenize ([] : List Char) = [] ∧
        (tokenize ['a', '\n', 'b']).flatten = ['a', '\n', 'b']) :=
  ⟨by decide, C6_tokenizer ['a', '\n', 'b'] ['\n'] (by decide)⟩

/-- Double toggle is the identity on any unit some renderer flush produced
(newline-free insert text, not both accumulators empty). -/
theorem toggle_toggle_mkUnit (pd pi : List Char)
    (hne : pd ≠ [] ∨ pi ≠ []) (hnl : '\n' ∉ pi) :
    toggleUnit (toggleUnit (mkUnit pd pi)) = mkUnit pd pi := by
  by_cases hpi : pi = []
  · have hpd : pd ≠ [] := by tauto
    have h1 : mkUnit pd pi = ⟨.modified, pd, pi, delMarker⟩ := by
      unfold mkUnit
      rw [if_neg (by simp [hpi]), if_pos ⟨hpi, hpd⟩]
    rw [h1]
    simp [toggleUnit, hpi, hpd]
  · have h1 : mkUnit pd pi = ⟨.modified, pd, pi, formatForDisplay pi⟩ := by
      unfold mkUnit
      by_cases hpd : pd = []
      · rw [if_pos ⟨hpi, hpd⟩]
      · rw [if_neg (by simp [hpd]), if_neg (by simp [hpi])]
    have htrim : trimTrailingNewlines pi = pi := trimTrailingNewlines_of_no_newline hnl
    rw [h1]
    simp [toggleUnit, hpi, htrim]

/-- C7. For any rendered Change Unit, applying the toggle transition twice
returns it to its original `displayState` and to identical displayed
content (and identical attributes) as before the first toggle. -/
theorem C7_toggle_reversible (a b : List Char) (u : DiffUnit)
    (hu : u ∈ unitsOf (generateInteractiveDiff a b)) :
    toggleUnit (toggleUnit u) = u := by
  obtain ⟨pd, pi, hne, hnl, hequ⟩ := generateInteractiveDiff_units a b u hu
  subst hequ
  exact toggle_toggle_mkUnit pd pi hne hnl

/-- Witness for C7 at a concrete substitution unit. -/
theorem C7_witness :
    ((⟨.modified, ['p'], ['q'], ['q']⟩ : DiffUnit) ∈
        unitsOf (generateInteractiveDiff ['p'] ['q'])) ∧
      toggleUnit (toggleUnit ⟨.modified, ['p'], ['q'], ['q']⟩) =
        (⟨.modified, ['p'], ['q'], ['q']⟩ : DiffUnit) :=
  ⟨by decide, C7_toggle_reversible ['p'] ['q'] _ (by decide)⟩

/-- C8 (counterexample to the claim as stated). A pure-deletion Change Unit
does show the fixed placeholder glyph in the Revised state, but toggling
does not always show the *full* `originalText`: the click handler trims
trailing newlines (`original.replace(/\n+$/, '')`), so for the diff of
`"a b\n"` against `"a"` — whose single Change Unit deletes `" b\n"` — the
toggled display is the rendering of `" b"`, not of `" b\n"`. -/
theorem C8_counterexample :
    ((⟨.modified, (" b\n".data), [], delMarker⟩ : DiffUnit) ∈
        unitsOf (generateInteractiveDiff ("a b\n".data) ("a".data))) ∧
      (toggleUnit (⟨.modified, (" b\n".data), [], delMarker⟩ : DiffUnit)).display ≠
        formatForDisplay (" b\n".data) := by
  decide

/-- C8 (amended). A pure-deletion Change Unit (empty `revisedText`,
non-empty `originalText`) in the Revised display state shows only the short
fixed non-editable placeholder glyph meaning "text removed here", and
toggling it shows the `originalText` with its trailing newlines removed —
in particular the full `originalText` whenever that text contains no
newline. -/
theorem C8_pure_deletion (a b : List Char) (u : DiffUnit)
    (hu : u ∈ unitsOf (generateInteractiveDiff a b)) (hdel : u.modified = []) :
    u.original ≠ [] ∧ u.display = delMarker ∧
      (toggleUnit u).state = .original ∧
      (toggleUnit u).display = formatForDisplay (trimTrailingNewlines u.original) ∧
      ('\n' ∉ u.original → (toggleUnit u).display = formatForDisplay u.original) := by
  obtain ⟨pd, pi, hne, hnl, hequ⟩ := generateInteractiveDiff_units a b u hu
  subst hequ
  rw [mkUnit_modified] at hdel
  subst hdel
  have hpd : pd ≠ [] := by tauto
  have h1 : mkUnit pd [] = ⟨.modified, pd, [], delMarker⟩ := by
    unfold mkUnit
    rw [if_neg (by simp), if_pos ⟨rfl, hpd⟩]
  rw [h1]
  refine ⟨hpd, rfl, ?_, ?_, ?_⟩
  · simp [toggleUnit, hpd]
  · simp [toggleUnit, hpd]
  · intro hno
    simp [toggleUnit, hpd, trimTrailingNewlines_of_no_newline hno]

/-- Witness for C8's amended theorem at the pure deletion of `" y"` from
`"x y"`. -/
theorem C8_witness :
    ((⟨.modified, (" y".data), [], delMarker⟩ : DiffUnit) ∈
        unitsOf (generateInteractiveDiff ("x y".data) ("x".data))) ∧
      ((⟨.modified, (" y".data), [], delMarker⟩ : DiffUnit).modified = []) ∧
      ((⟨.modified, (" y".data), [], delMarker⟩ : DiffUnit).original ≠ [] ∧
        (⟨.modified, (" y".data), [], delMarker⟩ : DiffUnit).display = delMarker ∧
        (toggleUnit ⟨.modified, (" y".data), [], delMarker⟩).state = .original ∧
        (toggleUnit ⟨.modified, (" y".data), [], delMarker⟩).display =
          formatForDisplay
            (trimTrailingNewlines (⟨.modified, (" y".data), [], delMarker⟩ : DiffUnit).original) ∧
        ('\n' ∉ (⟨.modified, (" y".data), [], delMarker⟩ : DiffUnit).original →
          (toggleUnit ⟨.modified, (" y".data), [], delMarker⟩).display =
            formatForDisplay (⟨.modified, (" y".data), [], delMarker⟩ : DiffUnit).original)) :=
  ⟨by decide, by decide,
    C8_pure_deletion ("x y".data) ("x".data) _ (by decide) (by decide)⟩

/-- C9. The renderer never creates a Change Unit that is empty in both
`originalText` and `revisedText`: every emitted Change Unit has a non-empty
`originalText` or a non-empty `revisedText`. -/
theorem C9_no_empty_unit (a b : List Char) (u : DiffUnit)
    (hu : u ∈ unitsOf (generateInteractiveDiff a b)) :
    u.original ≠ [] ∨ u.modified ≠ [] := by
  obtain ⟨pd, pi, hne, _, hequ⟩ := generateInteractiveDiff_units a b u hu
  subst hequ
  rw [mkUnit_original, mkUnit_modified]
  exact hne

/-- Witness for C9 at a concrete substitution unit. -/
theorem C9_witness :
    ((⟨.modified, ['u'], ['v'], ['v']⟩ : DiffUnit) ∈
        unitsOf (generateInteractiveDiff ['u'] ['v'])) ∧
      ((⟨.modified, ['u'], ['v'], ['v']⟩ : DiffUnit).original ≠ [] ∨
        (⟨.modified, ['u'], ['v'], ['v']⟩ : DiffUnit).modified ≠ []) :=
  ⟨by decide, C9_no_empty_unit ['u'] ['v'] _ (by decide)⟩

/-- C10. Pushing a snapshot whose serialized content and caret offset both
equal those of the snapshot at the current history index leaves the history
stack and index unchanged; consequently `saveSnapshot` preserves the
invariant that no two adjacent entries of the history stack agree in both
serialized content and caret offset. -/
theorem C10_snapshot_dedup (st : EditorState) (html : List Char) (caret : Nat) :
    (st.history.get? st.index = some ⟨html, caret⟩ →
        saveSnapshot st html caret = st) ∧
      (st.index < st.history.length →
        st.history.Chain' (fun x y => ¬(x.html = y.html ∧ x.caret = y.caret)) →
        (saveSnapshot st html caret).history.Chain'
          (fun x y => ¬(x.html = y.html ∧ x.caret = y.caret))) := by
  constructor
  · intro hdup
    exact saveSnapshot_skip st html caret hdup
  · intro hidx hch
    by_cases hsk : st.history.get? st.index = some ⟨html, caret⟩
    · rw [saveSnapshot_skip st html caret hsk]
      exact hch
    · rw [saveSnapshot_of_ne st html caret hsk]
      dsimp only
      have hch_take : (st.history.take (st.index + 1)).Chain'
          (fun x y => ¬(x.html = y.html ∧ x.caret = y.caret)) :=
        hch.prefix (List.take_prefix _ _)
      have hlast : (st.history.take (st.index + 1)).getLast? =
          some st.history[st.index] := by
        rw [List.take_succ, List.getElem?_eq_getElem hidx, Option.toList_some]
        exact List.getLast?_concat _
      have hR : ¬(st.history[st.index].html = html ∧
          st.history[st.index].caret = caret) := by
        intro hcon
        apply hsk
        rw [List.get?_eq_getElem?, List.getElem?_eq_getElem hidx]
        have heqrec : st.history[st.index] = ⟨html, caret⟩ := by
          cases hg : st.history[st.index]
          simp_all
        rw [heqrec]
      have hpush : (st.history.take (st.index + 1) ++ [(⟨html, caret⟩ : HistoryState)]).Chain'
          (fun x y => ¬(x.html = y.html ∧ x.caret = y.caret)) := by
        rw [List.chain'_append]
        refine ⟨hch_take, List.chain'_singleton _, ?_⟩
        intro x hx y hy
        rw [hlast] at hx
        simp only [Option.mem_def, Option.some.injEq] at hx
        simp only [List.head?_cons, Option.mem_def, Option.some.injEq] at hy
        subst hx
        subst hy
        exact hR
      split
      · rw [List.drop_one]
        exact hpush.tail
      · exact hpush

/-- Witness for C10 at a singleton history whose entry matches the pushed
snapshot. -/
theorem C10_witness :
    ((⟨[⟨['a'], 0⟩], 0, ['a'], 0⟩ : EditorState).history.get?
          (⟨[⟨['a'], 0⟩], 0, ['a'], 0⟩ : EditorState).index = some ⟨['a'], 0⟩ →
        saveSnapshot ⟨[⟨['a'], 0⟩], 0, ['a'], 0⟩ ['a'] 0 = ⟨[⟨['a'], 0⟩], 0, ['a'], 0⟩) ∧
      ((⟨[⟨['a'], 0⟩], 0, ['a'], 0⟩ : EditorState).index <
          (⟨[⟨['a'], 0⟩], 0, ['a'], 0⟩ : EditorState).history.length →
        (⟨[⟨['a'], 0⟩], 0, ['a'], 0⟩ : EditorState).history.Chain'
          (fun x y => ¬(x.html = y.html ∧ x.caret = y.caret)) →
        (saveSnapshot ⟨[⟨['a'], 0⟩], 0, ['a'], 0⟩ ['a'] 0).history.Chain'
          (fun x y => ¬(x.html = y.html ∧ x.caret = y.caret))) :=
  C10_snapshot_dedup ⟨[⟨['a'], 0⟩], 0, ['a'], 0⟩ ['a'] 0

end Dynojump
